import Mathlib

/-!
Verification of the AI-Native Development System's pure core routines.

Strings are modelled as lists of characters (`Str`).  Each definition below is a
shallow embedding of a Go routine of the repository:

* the LLM-response section extractor inlined in
  `pkg/intent/processor.go`, `generateCodeWithLLM` (marker search with
  `strings.Index`, slicing, `strings.TrimSpace`, and the no-sections fallback);
* the basic (no-LLM-client) branch of `ParseIntent` in the same file;
* `convertToStringMap` from the desktop front end;
* the 12-hour models cache around `fetchAvailableModels` / `refreshModelsList`.
-/

abbrev Str := List Char

/-- Model of Go `unicode.IsSpace` (the predicate used by `strings.TrimSpace`):
ASCII whitespace plus the Unicode `White_Space` code points. -/
def isSpaceGo (c : Char) : Bool :=
  c = ' ' || c = '\t' || c = '\n' || (c.toNat = 11) || (c.toNat = 12) || c = '\r' ||
  (c.toNat = 0x85) || (c.toNat = 0xA0) || (c.toNat = 0x1680) ||
  (0x2000 ≤ c.toNat && c.toNat ≤ 0x200A) ||
  (c.toNat = 0x2028) || (c.toNat = 0x2029) || (c.toNat = 0x202F) ||
  (c.toNat = 0x205F) || (c.toNat = 0x3000)

/-- Model of Go `strings.TrimSpace`: drop leading and trailing whitespace. -/
def trimSpace (s : Str) : Str :=
  ((s.dropWhile isSpaceGo).reverse.dropWhile isSpaceGo).reverse

/-- The pattern occurs in `s` at position `n` (the property that
`strings.Index` searches for). -/
def occursAt (s pat : Str) (n : Nat) : Prop :=
  (s.drop n).take pat.length = pat

instance (s pat : Str) (n : Nat) : Decidable (occursAt s pat n) := by
  unfold occursAt; infer_instance

/-- Model of Go `strings.Index`: position of the first occurrence of `pat`
in `s`, `none` when there is none (Go returns `-1`). -/
def indexOf (s pat : Str) : Option Nat :=
  match s with
  | [] => if pat = [] then some 0 else none
  | c :: t =>
    if (c :: t).take pat.length = pat then some 0
    else (indexOf t pat).map (· + 1)

/-- Model of Go `strings.Contains` (`strings.Index(s, pat) >= 0`). -/
def containsStr (s pat : Str) : Bool :=
  (indexOf s pat).isSome

def codeMarker : Str := "===CODE===".toList

def astMarker : Str := "===AST===".toList

def semMarker : Str := "===SEMANTICS===".toList

def astPlaceholder : Str := "// AST representation not available".toList

def semPlaceholder : Str := "// Semantic model not available".toList

/-- The `sections` map built by `generateCodeWithLLM`: each key is either
absent (`none`) or holds a string. -/
structure Sections where
  code : Option Str
  ast : Option Str
  semantics : Option Str
deriving DecidableEq, Repr

/-- The three marker-scanning steps of `generateCodeWithLLM`, before the
no-sections fallback.  Each scan is over the full text with `strings.Index`;
the code scan looks for `===AST===` only after the code marker, the AST scan
looks for `===SEMANTICS===` only after the AST marker. -/
def rawSections (text : Str) : Sections :=
  { code :=
      match indexOf text codeMarker with
      | some i =>
        let rest := text.drop (i + codeMarker.length)
        match indexOf rest astMarker with
        | some j => some (trimSpace (rest.take j))
        | none => some (trimSpace rest)
      | none => none
    ast :=
      match indexOf text astMarker with
      | some i =>
        let rest := text.drop (i + astMarker.length)
        match indexOf rest semMarker with
        | some j => some (trimSpace (rest.take j))
        | none => some (trimSpace rest)
      | none => none
    semantics :=
      match indexOf text semMarker with
      | some i => some (trimSpace (text.drop (i + semMarker.length)))
      | none => none }

/-- The fallback test of `generateCodeWithLLM`:
`len(sections["code"]) == 0 && len(sections["ast"]) == 0 &&
len(sections["semantics"]) == 0` (a missing key reads as the empty string). -/
def allSectionsEmpty (s : Sections) : Bool :=
  (s.code.getD []).isEmpty && (s.ast.getD []).isEmpty && (s.semantics.getD []).isEmpty

/-- The complete section extractor of `generateCodeWithLLM`: marker scans,
then — when every extracted section is empty — the fallback that stores the
whole trimmed response under `code` and placeholders under `ast` and
`semantics`. -/
def extractSections (text : Str) : Sections :=
  let s := rawSections text
  if allSectionsEmpty s then
    { code := some (trimSpace text), ast := some astPlaceholder,
      semantics := some semPlaceholder }
  else s

example : extractSections ("===CODE===\nfoo()\n===AST===\n\x7b\x7d\n===SEMANTICS===\n\x7b\x7d".toList) =
    { code := some ("foo()".toList), ast := some ("\x7b\x7d".toList),
      semantics := some ("\x7b\x7d".toList) } := by decide

example : extractSections ("===CODE===".toList) =
    { code := some codeMarker, ast := some astPlaceholder,
      semantics := some semPlaceholder } := by decide

example : extractSections (" x ".toList) =
    { code := some ("x".toList), ast := some astPlaceholder,
      semantics := some semPlaceholder } := by decide

/-! ### Properties of the substring scan -/

theorem occursAt_append (a b pat : Str) : occursAt (a ++ (pat ++ b)) pat a.length := by
  unfold occursAt
  rw [List.drop_left, List.take_left]

theorem occursAt_shift (s pat : Str) (d m : Nat) :
    occursAt (s.drop d) pat m ↔ occursAt s pat (d + m) := by
  unfold occursAt
  rw [List.drop_drop]

theorem occursAt_length_lt (s pat : Str) (n : Nat) (hp : pat ≠ [])
    (h : occursAt s pat n) : n < s.length := by
  by_contra hn
  push_neg at hn
  unfold occursAt at h
  rw [List.drop_eq_nil_of_le hn] at h
  simp at h
  exact hp h

theorem indexOf_some (s pat : Str) (n : Nat) (h : indexOf s pat = some n) :
    occursAt s pat n ∧ ∀ m, m < n → ¬ occursAt s pat m := by
  induction s generalizing n with
  | nil =>
    unfold indexOf at h
    split at h
    · rename_i hpat
      cases h
      subst hpat
      exact ⟨rfl, fun m hm => absurd hm (Nat.not_lt_zero m)⟩
    · cases h
  | cons c t ih =>
    unfold indexOf at h
    split at h
    · rename_i htake
      cases h
      refine ⟨htake, fun m hm => absurd hm (Nat.not_lt_zero m)⟩
    · rename_i htake
      rcases Option.map_eq_some'.mp h with ⟨n', hn', rfl⟩
      obtain ⟨hocc, hmin⟩ := ih n' hn'
      refine ⟨hocc, ?_⟩
      intro m hm
      cases m with
      | zero => exact fun hc => htake hc
      | succ m' => exact hmin m' (Nat.lt_of_succ_lt_succ hm)

theorem indexOf_none (s pat : Str) (h : indexOf s pat = none) :
    ∀ n, ¬ occursAt s pat n := by
  induction s with
  | nil =>
    unfold indexOf at h
    split at h
    · cases h
    · rename_i hpat
      intro n hc
      unfold occursAt at hc
      simp at hc
      exact hpat hc
  | cons c t ih =>
    unfold indexOf at h
    split at h
    · cases h
    · rename_i htake
      have ht : indexOf t pat = none := by
        cases hi : indexOf t pat with
        | none => rfl
        | some k => rw [hi] at h; cases h
      intro n
      cases n with
      | zero => exact fun hc => htake hc
      | succ n' => exact ih ht n'

theorem indexOf_eq_none (s pat : Str) (h : ∀ n, ¬ occursAt s pat n) :
    indexOf s pat = none := by
  cases hi : indexOf s pat with
  | none => rfl
  | some n => exact absurd (indexOf_some s pat n hi).1 (h n)

theorem indexOf_eq_some (s pat : Str) (n : Nat) (hocc : occursAt s pat n)
    (hmin : ∀ m, m < n → ¬ occursAt s pat m) : indexOf s pat = some n := by
  cases hi : indexOf s pat with
  | none => exact absurd hocc (indexOf_none s pat hi n)
  | some m =>
    obtain ⟨hoccm, hminm⟩ := indexOf_some s pat m hi
    rcases Nat.lt_trichotomy m n with hlt | heq | hgt
    · exact absurd hoccm (hmin m hlt)
    · rw [heq]
    · exact absurd hocc (hminm n hgt)

theorem indexOf_eq_some_of_unique (s pat : Str) (n : Nat) (hocc : occursAt s pat n)
    (huniq : ∀ m, occursAt s pat m → m = n) : indexOf s pat = some n :=
  indexOf_eq_some s pat n hocc
    (fun m hlt hm => absurd (huniq m hm) (Nat.ne_of_lt hlt))

theorem occursAt_unique_of_bounded (s pat : Str) (n : Nat) (hp : pat ≠ [])
    (h : ∀ m, m < s.length → occursAt s pat m → m = n) :
    ∀ m, occursAt s pat m → m = n :=
  fun m hm => h m (occursAt_length_lt s pat m hp hm) hm

/-! ### Properties of trimming -/

theorem dropWhile_dropWhile (p : Char → Bool) (l : Str) :
    List.dropWhile p (List.dropWhile p l) = List.dropWhile p l := by
  induction l with
  | nil => rfl
  | cons a t ih =>
    rw [List.dropWhile_cons]
    split
    · exact ih
    · rename_i hp
      rw [List.dropWhile_cons, if_neg hp]

theorem dropWhile_head_false (p : Char → Bool) (l : Str) (c : Char) (t : Str)
    (h : List.dropWhile p l = c :: t) : p c = false := by
  induction l with
  | nil => cases h
  | cons a l' ih =>
    rw [List.dropWhile_cons] at h
    split at h
    · exact ih h
    · rename_i hp
      cases h
      exact Bool.not_eq_true _ |>.mp hp

theorem dropWhile_eq_self_of_head (p : Char → Bool) (l : Str)
    (h : ∀ c t, l = c :: t → p c = false) : List.dropWhile p l = l := by
  cases l with
  | nil => rfl
  | cons c t =>
    rw [List.dropWhile_cons, if_neg]
    simp [h c t rfl]

theorem trimSpace_head_false (s : Str) (c : Char) (t : Str)
    (h : trimSpace s = c :: t) : isSpaceGo c = false := by
  unfold trimSpace at h
  have hlast :
      (List.dropWhile isSpaceGo ((List.dropWhile isSpaceGo s).reverse)).getLast? = some c := by
    rw [← List.head?_reverse, h]
    rfl
  obtain ⟨u, hu⟩ := List.dropWhile_suffix
    (l := (List.dropWhile isSpaceGo s).reverse) isSpaceGo
  have hne : List.dropWhile isSpaceGo ((List.dropWhile isSpaceGo s).reverse) ≠ [] := by
    intro hnil
    rw [hnil] at hlast
    cases hlast
  have hlast2 : ((List.dropWhile isSpaceGo s).reverse).getLast? = some c := by
    rw [← hu, List.getLast?_append_of_ne_nil u hne, hlast]
  have hhead : (List.dropWhile isSpaceGo s).head? = some c := by
    rw [← List.getLast?_reverse, hlast2]
  cases hd : List.dropWhile isSpaceGo s with
  | nil => rw [hd] at hhead; cases hhead
  | cons c0 t0 =>
    rw [hd] at hhead
    have hcc : c0 = c := by
      simpa using hhead
    exact hcc ▸ dropWhile_head_false isSpaceGo s c0 t0 hd

theorem trimSpace_idem (s : Str) : trimSpace (trimSpace s) = trimSpace s := by
  have h1 : List.dropWhile isSpaceGo (trimSpace s) = trimSpace s :=
    dropWhile_eq_self_of_head isSpaceGo (trimSpace s)
      (fun c t h => trimSpace_head_false s c t h)
  have h2 : List.dropWhile isSpaceGo ((trimSpace s).reverse) = (trimSpace s).reverse := by
    unfold trimSpace
    rw [List.reverse_reverse]
    exact dropWhile_dropWhile isSpaceGo ((s.dropWhile isSpaceGo).reverse)
  show (((trimSpace s).dropWhile isSpaceGo).reverse.dropWhile isSpaceGo).reverse = _
  rw [h1, h2, List.reverse_reverse]

/-! ### Computing the extractor on structured inputs -/

theorem drop_marker (p mk z : Str) :
    (p ++ (mk ++ z)).drop (p.length + mk.length) = z := by
  have h1 : (p ++ (mk ++ z)).drop p.length = mk ++ z := List.drop_left p (mk ++ z)
  have h2 : ((p ++ (mk ++ z)).drop p.length).drop mk.length = z := by
    rw [h1, List.drop_left]
  rw [List.drop_drop] at h2
  exact h2

theorem rawSections_structured (p q r s : Str)
    (hC : ∀ m, occursAt (p ++ (codeMarker ++ (q ++ (astMarker ++ (r ++ (semMarker ++ s))))))
      codeMarker m → m = p.length)
    (hA : ∀ m, occursAt (p ++ (codeMarker ++ (q ++ (astMarker ++ (r ++ (semMarker ++ s))))))
      astMarker m → m = p.length + codeMarker.length + q.length)
    (hS : ∀ m, occursAt (p ++ (codeMarker ++ (q ++ (astMarker ++ (r ++ (semMarker ++ s))))))
      semMarker m → m = p.length + codeMarker.length + q.length + astMarker.length + r.length) :
    rawSections (p ++ (codeMarker ++ (q ++ (astMarker ++ (r ++ (semMarker ++ s)))))) =
      { code := some (trimSpace q), ast := some (trimSpace r),
        semantics := some (trimSpace s) } := by
  set text := p ++ (codeMarker ++ (q ++ (astMarker ++ (r ++ (semMarker ++ s))))) with htext
  have htext2 : text = ((p ++ codeMarker) ++ q) ++
      (astMarker ++ (r ++ (semMarker ++ s))) := by
    simp [htext, List.append_assoc]
  have htext4 : text = ((((p ++ codeMarker) ++ q) ++ astMarker) ++ r) ++
      (semMarker ++ s) := by
    simp [htext, List.append_assoc]
  have hlen2 : ((p ++ codeMarker) ++ q).length =
      p.length + codeMarker.length + q.length := by
    simp [Nat.add_assoc]
  have hlen4 : ((((p ++ codeMarker) ++ q) ++ astMarker) ++ r).length =
      p.length + codeMarker.length + q.length + astMarker.length + r.length := by
    simp [Nat.add_assoc]
  -- first occurrence of the code marker
  have hoccC : occursAt text codeMarker p.length := occursAt_append p _ codeMarker
  have hiC : indexOf text codeMarker = some p.length :=
    indexOf_eq_some_of_unique text codeMarker p.length hoccC hC
  -- the remainder after the code marker
  have hrestC : text.drop (p.length + codeMarker.length) =
      q ++ (astMarker ++ (r ++ (semMarker ++ s))) := drop_marker p codeMarker _
  -- the AST marker inside that remainder
  have hoccA2 : occursAt (q ++ (astMarker ++ (r ++ (semMarker ++ s)))) astMarker q.length :=
    occursAt_append q _ astMarker
  have hiA2 : indexOf (q ++ (astMarker ++ (r ++ (semMarker ++ s)))) astMarker = some q.length := by
    apply indexOf_eq_some _ _ _ hoccA2
    intro m hlt hm
    rw [← hrestC] at hm
    have := hA _ ((occursAt_shift text astMarker (p.length + codeMarker.length) m).mp hm)
    omega
  -- the AST marker in the full text
  have hoccA : occursAt text astMarker (p.length + codeMarker.length + q.length) := by
    have h := occursAt_append ((p ++ codeMarker) ++ q) (r ++ (semMarker ++ s)) astMarker
    rw [← htext2] at h
    rw [hlen2] at h
    exact h
  have hiA : indexOf text astMarker = some (p.length + codeMarker.length + q.length) :=
    indexOf_eq_some_of_unique text astMarker _ hoccA hA
  -- the remainder after the AST marker
  have hrestA : text.drop (p.length + codeMarker.length + q.length + astMarker.length) =
      r ++ (semMarker ++ s) := by
    have h := drop_marker ((p ++ codeMarker) ++ q) astMarker (r ++ (semMarker ++ s))
    rw [← htext2] at h
    rw [hlen2] at h
    exact h
  -- the semantics marker inside that remainder
  have hoccS2 : occursAt (r ++ (semMarker ++ s)) semMarker r.length :=
    occursAt_append r s semMarker
  have hiS2 : indexOf (r ++ (semMarker ++ s)) semMarker = some r.length := by
    apply indexOf_eq_some _ _ _ hoccS2
    intro m hlt hm
    rw [← hrestA] at hm
    have := hS _ ((occursAt_shift text semMarker
      (p.length + codeMarker.length + q.length + astMarker.length) m).mp hm)
    omega
  -- the semantics marker in the full text
  have hoccS : occursAt text semMarker
      (p.length + codeMarker.length + q.length + astMarker.length + r.length) := by
    have h := occursAt_append ((((p ++ codeMarker) ++ q) ++ astMarker) ++ r) s semMarker
    rw [← htext4] at h
    rw [hlen4] at h
    exact h
  have hiS : indexOf text semMarker =
      some (p.length + codeMarker.length + q.length + astMarker.length + r.length) :=
    indexOf_eq_some_of_unique text semMarker _ hoccS hS
  -- the remainder after the semantics marker
  have hrestS : text.drop (p.length + codeMarker.length + q.length + astMarker.length +
      r.length + semMarker.length) = s := by
    have h := drop_marker ((((p ++ codeMarker) ++ q) ++ astMarker) ++ r) semMarker s
    rw [← htext4] at h
    rw [hlen4] at h
    exact h
  -- assemble
  simp only [rawSections, hiC, hiA, hiS, hrestC, hiA2, hrestA, hiS2, hrestS,
    List.take_left]

/-! ### Shared consequences of the extractor definition -/

theorem extract_no_markers_aux (text : Str)
    (hC : ∀ m, ¬ occursAt text codeMarker m)
    (hA : ∀ m, ¬ occursAt text astMarker m)
    (hS : ∀ m, ¬ occursAt text semMarker m) :
    extractSections text =
      { code := some (trimSpace text), ast := some astPlaceholder,
        semantics := some semPlaceholder } := by
  have hiC := indexOf_eq_none text codeMarker hC
  have hiA := indexOf_eq_none text astMarker hA
  have hiS := indexOf_eq_none text semMarker hS
  have hraw : rawSections text = { code := none, ast := none, semantics := none } := by
    simp only [rawSections, hiC, hiA, hiS]
  simp [extractSections, hraw, allSectionsEmpty]

theorem rawCode_trimmed (text : Str) :
    trimSpace ((rawSections text).code.getD []) = (rawSections text).code.getD [] := by
  simp only [rawSections]
  cases hiC : indexOf text codeMarker with
  | none => rfl
  | some i =>
    cases hiA : indexOf (text.drop (i + codeMarker.length)) astMarker with
    | none => simp [hiA, trimSpace_idem]
    | some j => simp [hiA, trimSpace_idem]

theorem extractCode_trimmed (text : Str) :
    trimSpace ((extractSections text).code.getD []) = (extractSections text).code.getD [] := by
  simp only [extractSections]
  split
  · simp [trimSpace_idem]
  · exact rawCode_trimmed text

/-! ### Claim C1 -/

/-- C1 (amended): if the text decomposes as
`p ++ ===CODE=== ++ q ++ ===AST=== ++ r ++ ===SEMANTICS=== ++ s` with each
marker occurring exactly once (at its structural position), and the three
sections `q`, `r`, `s` do not all trim to the empty string, then the extractor
returns exactly the trimmed between-marker texts.  (The original claim omits
the all-empty proviso; see the counterexample.) -/
theorem extractor_markers_in_order (p q r s : Str)
    (hC : ∀ m, occursAt (p ++ (codeMarker ++ (q ++ (astMarker ++ (r ++ (semMarker ++ s))))))
      codeMarker m → m = p.length)
    (hA : ∀ m, occursAt (p ++ (codeMarker ++ (q ++ (astMarker ++ (r ++ (semMarker ++ s))))))
      astMarker m → m = p.length + codeMarker.length + q.length)
    (hS : ∀ m, occursAt (p ++ (codeMarker ++ (q ++ (astMarker ++ (r ++ (semMarker ++ s))))))
      semMarker m → m = p.length + codeMarker.length + q.length + astMarker.length + r.length)
    (hne : ¬ (trimSpace q = [] ∧ trimSpace r = [] ∧ trimSpace s = [])) :
    extractSections (p ++ (codeMarker ++ (q ++ (astMarker ++ (r ++ (semMarker ++ s)))))) =
      { code := some (trimSpace q), ast := some (trimSpace r),
        semantics := some (trimSpace s) } := by
  have hraw := rawSections_structured p q r s hC hA hS
  simp only [extractSections, hraw]
  rw [if_neg]
  intro hall
  simp [allSectionsEmpty, List.isEmpty_iff] at hall
  exact hne (by tauto)

/-- C1 counterexample: in `===CODE======AST======SEMANTICS===` each marker
occurs exactly once and in order, the text strictly between consecutive
markers is empty, yet the extractor's `code` entry is not that (trimmed empty)
text — the all-empty fallback fires instead. -/
theorem extractor_markers_in_order_cex :
    (∀ m, occursAt (codeMarker ++ (astMarker ++ semMarker)) codeMarker m → m = 0) ∧
    (∀ m, occursAt (codeMarker ++ (astMarker ++ semMarker)) astMarker m → m = 10) ∧
    (∀ m, occursAt (codeMarker ++ (astMarker ++ semMarker)) semMarker m → m = 19) ∧
    (extractSections (codeMarker ++ (astMarker ++ semMarker))).code ≠
      some (trimSpace []) := by
  refine ⟨?_, ?_, ?_, ?_⟩
  · exact occursAt_unique_of_bounded _ _ _ (by decide) (by decide)
  · exact occursAt_unique_of_bounded _ _ _ (by decide) (by decide)
  · exact occursAt_unique_of_bounded _ _ _ (by decide) (by decide)
  · decide

/-- C1 witness: the spec's own example response. -/
theorem extractor_markers_in_order_witness :
    extractSections (([] : Str) ++ (codeMarker ++ ("\nfoo()\n".toList ++
        (astMarker ++ ("\n\x7b\x7d\n".toList ++ (semMarker ++ "\n\x7b\x7d".toList)))))) =
      { code := some ("foo()".toList), ast := some ("\x7b\x7d".toList),
        semantics := some ("\x7b\x7d".toList) } := by
  have h := extractor_markers_in_order ([] : Str) ("\nfoo()\n".toList)
    ("\n\x7b\x7d\n".toList) ("\n\x7b\x7d".toList)
    (occursAt_unique_of_bounded _ _ _ (by decide) (by decide))
    (occursAt_unique_of_bounded _ _ _ (by decide) (by decide))
    (occursAt_unique_of_bounded _ _ _ (by decide) (by decide))
    (by decide)
  rw [h]
  decide

/-! ### Claim C2 -/

/-- C2 (amended): when none of the three markers occurs anywhere in the text,
the extractor stores the full input text — trimmed of leading and trailing
whitespace, which the original claim omits — under `code`, and the fixed
placeholder strings under `ast` and `semantics`. -/
theorem extractor_no_markers_fallback (text : Str)
    (hC : ∀ m, ¬ occursAt text codeMarker m)
    (hA : ∀ m, ¬ occursAt text astMarker m)
    (hS : ∀ m, ¬ occursAt text semMarker m) :
    extractSections text =
      { code := some (trimSpace text), ast := some astPlaceholder,
        semantics := some semPlaceholder } :=
  extract_no_markers_aux text hC hA hS

/-- C2 counterexample: the input `" x "` contains no marker, but the `code`
entry is the trimmed text `"x"`, not the full unprocessed input `" x "`. -/
theorem extractor_no_markers_fallback_cex :
    (∀ m, ¬ occursAt (" x ".toList) codeMarker m) ∧
    (∀ m, ¬ occursAt (" x ".toList) astMarker m) ∧
    (∀ m, ¬ occursAt (" x ".toList) semMarker m) ∧
    (extractSections (" x ".toList)).code ≠ some (" x ".toList) := by
  refine ⟨indexOf_none _ _ (by decide), indexOf_none _ _ (by decide),
    indexOf_none _ _ (by decide), ?_⟩
  decide

/-- C2 witness: a marker-free input. -/
theorem extractor_no_markers_fallback_witness :
    extractSections ("hello".toList) =
      { code := some ("hello".toList), ast := some astPlaceholder,
        semantics := some semPlaceholder } := by
  have h := extractor_no_markers_fallback ("hello".toList)
    (indexOf_none _ _ (by decide)) (indexOf_none _ _ (by decide))
    (indexOf_none _ _ (by decide))
  rw [h]
  decide

/-! ### Claim C3 -/

/-- C3 (amended): when the text is `p ++ ===CODE=== ++ q` with no earlier
occurrence of the code marker and no occurrence at all of the AST or semantics
marker, and the remainder `q` does not trim to the empty string, then `code`
is the whole remainder after the marker — trimmed, which the original claim
omits — and the `ast` and `semantics` keys are absent.  (When the remainder
trims to empty the all-empty fallback fires instead; see the
counterexample.) -/
theorem extractor_code_marker_only (text p q : Str)
    (htext : text = p ++ (codeMarker ++ q))
    (hfirst : ∀ m, m < p.length → ¬ occursAt text codeMarker m)
    (hA : ∀ m, ¬ occursAt text astMarker m)
    (hS : ∀ m, ¬ occursAt text semMarker m)
    (hne : trimSpace q ≠ []) :
    extractSections text =
      { code := some (trimSpace q), ast := none, semantics := none } := by
  subst htext
  have hoccC : occursAt (p ++ (codeMarker ++ q)) codeMarker p.length :=
    occursAt_append p q codeMarker
  have hiC : indexOf (p ++ (codeMarker ++ q)) codeMarker = some p.length :=
    indexOf_eq_some _ _ _ hoccC hfirst
  have hrest : (p ++ (codeMarker ++ q)).drop (p.length + codeMarker.length) = q :=
    drop_marker p codeMarker q
  have hiA : indexOf (p ++ (codeMarker ++ q)) astMarker = none :=
    indexOf_eq_none _ _ hA
  have hiS : indexOf (p ++ (codeMarker ++ q)) semMarker = none :=
    indexOf_eq_none _ _ hS
  have hiA2 : indexOf q astMarker = none := by
    apply indexOf_eq_none
    intro n hn
    rw [← hrest] at hn
    exact hA _ ((occursAt_shift _ _ _ _).mp hn)
  have hraw : rawSections (p ++ (codeMarker ++ q)) =
      { code := some (trimSpace q), ast := none, semantics := none } := by
    simp only [rawSections, hiC, hiA, hiS, hrest, hiA2]
  simp only [extractSections, hraw]
  rw [if_neg]
  intro hall
  simp [allSectionsEmpty, List.isEmpty_iff] at hall
  exact hne hall

/-- C3 counterexample: for the input consisting of the bare `===CODE===`
marker, the remainder after the marker is empty, so the fallback fires: the
`code` entry is the whole marker text (not the empty remainder) and the `ast`
and `semantics` keys are present (placeholders), not absent. -/
theorem extractor_code_marker_only_cex :
    occursAt codeMarker codeMarker 0 ∧
    (∀ m, ¬ occursAt codeMarker astMarker m) ∧
    (∀ m, ¬ occursAt codeMarker semMarker m) ∧
    ¬ ((extractSections codeMarker).code = some ([] : Str) ∧
       (extractSections codeMarker).ast = none ∧
       (extractSections codeMarker).semantics = none) := by
  refine ⟨by decide, indexOf_none _ _ (by decide), indexOf_none _ _ (by decide), ?_⟩
  decide

/-- C3 witness. -/
theorem extractor_code_marker_only_witness :
    extractSections ("===CODE===\nfoo".toList) =
      { code := some ("foo".toList), ast := none, semantics := none } := by
  have h := extractor_code_marker_only ("===CODE===\nfoo".toList) [] ("\nfoo".toList)
    (by decide)
    (fun m hm => absurd hm (Nat.not_lt_zero m))
    (indexOf_none _ _ (by decide)) (indexOf_none _ _ (by decide)) (by decide)
  rw [h]
  decide

/-! ### Claim C4 -/

/-- C4 (amended): the extractor is total (it is a function and always yields a
section map), and the placeholder fallback is applied exactly when all three
extracted sections are empty after trimming.  Every input with no marker
occurrence satisfies that condition, but — contrary to the original claim's
"in no other case" — so do inputs whose markers enclose only whitespace; see
the counterexample. -/
theorem extractor_fallback_iff (text : Str) :
    (extractSections text ≠ rawSections text ↔
      allSectionsEmpty (rawSections text) = true) ∧
    ((∀ m, ¬ occursAt text codeMarker m) → (∀ m, ¬ occursAt text astMarker m) →
      (∀ m, ¬ occursAt text semMarker m) →
      allSectionsEmpty (rawSections text) = true) := by
  constructor
  · cases hall : allSectionsEmpty (rawSections text) with
    | false =>
      have hext : extractSections text = rawSections text := by
        simp [extractSections, hall]
      simp [hext, hall]
    | true =>
      have hne2 : extractSections text ≠ rawSections text := by
        have hext : extractSections text =
            { code := some (trimSpace text), ast := some astPlaceholder,
              semantics := some semPlaceholder } := by
          simp [extractSections, hall]
        rw [hext]
        intro heq
        rw [← heq] at hall
        simp [allSectionsEmpty, astPlaceholder] at hall
      simp [hne2, hall]
  · intro hC hA hS
    have hiC := indexOf_eq_none text codeMarker hC
    have hiA := indexOf_eq_none text astMarker hA
    have hiS := indexOf_eq_none text semMarker hS
    simp [rawSections, hiC, hiA, hiS, allSectionsEmpty]

/-- C4 counterexample: `===CODE=== ` (the marker followed by one space)
contains a marker, yet the fallback is applied (the result differs from the
raw scan, whose sections all trim to empty). -/
theorem extractor_fallback_iff_cex :
    occursAt ("===CODE=== ".toList) codeMarker 0 ∧
    extractSections ("===CODE=== ".toList) ≠ rawSections ("===CODE=== ".toList) := by
  exact ⟨by decide, by decide⟩

/-- C4 witness: a marker-free input satisfies the fallback condition. -/
theorem extractor_fallback_iff_witness :
    allSectionsEmpty (rawSections ("hello world".toList)) = true :=
  (extractor_fallback_iff ("hello world".toList)).2
    (indexOf_none _ _ (by decide)) (indexOf_none _ _ (by decide))
    (indexOf_none _ _ (by decide))

/-! ### Claim C5 -/

/-- C5 (amended): the AST section is located by an independent re-scan of the
full text.  When `===CODE===` is absent but `===AST===` is present, the `ast`
entry is the trimmed text between `===AST===` and `===SEMANTICS===` (first
conjunct: to end-of-text when the semantics marker is absent; second
conjunct: up to the semantics marker when present) — provided the extracted
sections are not all empty after trimming, in which case the fallback
replaces `ast` with the placeholder (see the counterexample, which the
original claim does not except). -/
theorem extractor_ast_rescan :
    (∀ text p r, text = p ++ (astMarker ++ r) →
      (∀ m, ¬ occursAt text codeMarker m) →
      (∀ m, m < p.length → ¬ occursAt text astMarker m) →
      (∀ m, ¬ occursAt text semMarker m) →
      trimSpace r ≠ [] →
      (extractSections text).ast = some (trimSpace r)) ∧
    (∀ text p r s, text = p ++ (astMarker ++ (r ++ (semMarker ++ s))) →
      (∀ m, ¬ occursAt text codeMarker m) →
      (∀ m, m < p.length → ¬ occursAt text astMarker m) →
      (∀ m, occursAt text semMarker m → m = p.length + astMarker.length + r.length) →
      ¬ (trimSpace r = [] ∧ trimSpace s = []) →
      (extractSections text).ast = some (trimSpace r)) := by
  constructor
  · intro text p r htext hC hfirst hS hne
    subst htext
    have hiC : indexOf (p ++ (astMarker ++ r)) codeMarker = none :=
      indexOf_eq_none _ _ hC
    have hoccA : occursAt (p ++ (astMarker ++ r)) astMarker p.length :=
      occursAt_append p r astMarker
    have hiA : indexOf (p ++ (astMarker ++ r)) astMarker = some p.length :=
      indexOf_eq_some _ _ _ hoccA hfirst
    have hrest : (p ++ (astMarker ++ r)).drop (p.length + astMarker.length) = r :=
      drop_marker p astMarker r
    have hiS : indexOf (p ++ (astMarker ++ r)) semMarker = none :=
      indexOf_eq_none _ _ hS
    have hiS2 : indexOf r semMarker = none := by
      apply indexOf_eq_none
      intro n hn
      rw [← hrest] at hn
      exact hS _ ((occursAt_shift _ _ _ _).mp hn)
    have hraw : rawSections (p ++ (astMarker ++ r)) =
        { code := none, ast := some (trimSpace r), semantics := none } := by
      simp only [rawSections, hiC, hiA, hiS, hrest, hiS2]
    simp only [extractSections, hraw]
    rw [if_neg]
    intro hall
    simp [allSectionsEmpty, List.isEmpty_iff] at hall
    exact hne hall
  · intro text p r s htext hC hfirst hSu hne
    subst htext
    have hiC : indexOf (p ++ (astMarker ++ (r ++ (semMarker ++ s)))) codeMarker = none :=
      indexOf_eq_none _ _ hC
    have hoccA : occursAt (p ++ (astMarker ++ (r ++ (semMarker ++ s)))) astMarker p.length :=
      occursAt_append p _ astMarker
    have hiA : indexOf (p ++ (astMarker ++ (r ++ (semMarker ++ s)))) astMarker =
        some p.length := indexOf_eq_some _ _ _ hoccA hfirst
    have hrestA : (p ++ (astMarker ++ (r ++ (semMarker ++ s)))).drop
        (p.length + astMarker.length) = r ++ (semMarker ++ s) :=
      drop_marker p astMarker _
    have hoccS2 : occursAt (r ++ (semMarker ++ s)) semMarker r.length :=
      occursAt_append r s semMarker
    have hiS2 : indexOf (r ++ (semMarker ++ s)) semMarker = some r.length := by
      apply indexOf_eq_some _ _ _ hoccS2
      intro m hlt hm
      rw [← hrestA] at hm
      have := hSu _ ((occursAt_shift _ _ _ _).mp hm)
      omega
    have htext4 : p ++ (astMarker ++ (r ++ (semMarker ++ s))) =
        ((p ++ astMarker) ++ r) ++ (semMarker ++ s) := by
      simp [List.append_assoc]
    have hlen : ((p ++ astMarker) ++ r).length =
        p.length + astMarker.length + r.length := by
      simp [Nat.add_assoc]
    have hoccS : occursAt (p ++ (astMarker ++ (r ++ (semMarker ++ s)))) semMarker
        (p.length + astMarker.length + r.length) := by
      have h := occursAt_append ((p ++ astMarker) ++ r) s semMarker
      rw [← htext4] at h
      rw [hlen] at h
      exact h
    have hiS : indexOf (p ++ (astMarker ++ (r ++ (semMarker ++ s)))) semMarker =
        some (p.length + astMarker.length + r.length) :=
      indexOf_eq_some_of_unique _ _ _ hoccS hSu
    have hrestS : (p ++ (astMarker ++ (r ++ (semMarker ++ s)))).drop
        (p.length + astMarker.length + r.length + semMarker.length) = s := by
      have h := drop_marker ((p ++ astMarker) ++ r) semMarker s
      rw [← htext4] at h
      rw [hlen] at h
      exact h
    have hraw : rawSections (p ++ (astMarker ++ (r ++ (semMarker ++ s)))) =
        { code := none, ast := some (trimSpace r), semantics := some (trimSpace s) } := by
      simp only [rawSections, hiC, hiA, hiS, hrestA, hiS2, hrestS, List.take_left]
    simp only [extractSections, hraw]
    rw [if_neg]
    intro hall
    simp [allSectionsEmpty, List.isEmpty_iff] at hall
    exact hne (by tauto)

/-- C5 counterexample: on the bare `===AST===` marker (no code marker, AST
marker present, no semantics marker) the claim predicts `ast` to be the
trimmed empty remainder, but the all-empty fallback replaces it with the
placeholder. -/
theorem extractor_ast_rescan_cex :
    (∀ m, ¬ occursAt astMarker codeMarker m) ∧
    occursAt astMarker astMarker 0 ∧
    (∀ m, ¬ occursAt astMarker semMarker m) ∧
    (extractSections astMarker).ast ≠
      some (trimSpace (astMarker.drop astMarker.length)) := by
  refine ⟨indexOf_none _ _ (by decide), by decide, indexOf_none _ _ (by decide), ?_⟩
  decide

/-- C5 witness: `===AST=== x` has no code marker, yet the AST section is
extracted. -/
theorem extractor_ast_rescan_witness :
    (extractSections ("===AST=== x".toList)).ast = some ("x".toList) := by
  have h := extractor_ast_rescan.1 ("===AST=== x".toList) [] (" x".toList)
    (by decide)
    (indexOf_none _ _ (by decide))
    (fun m hm => absurd hm (Nat.not_lt_zero m))
    (indexOf_none _ _ (by decide))
    (by decide)
  rw [h]
  decide

/-! ### Claim C6 -/

/-- C6: round-trip idempotence.  If the `code` output of the extractor
contains none of the three markers, re-running the extractor on it returns
that very text as the (sole) code section. -/
theorem extractor_code_roundtrip (text c : Str)
    (hc : c = (extractSections text).code.getD [])
    (hC : ∀ m, ¬ occursAt c codeMarker m)
    (hA : ∀ m, ¬ occursAt c astMarker m)
    (hS : ∀ m, ¬ occursAt c semMarker m) :
    (extractSections c).code = some c := by
  have ht : trimSpace c = c := by
    rw [hc]
    exact extractCode_trimmed text
  have h := extract_no_markers_aux c hC hA hS
  rw [h]
  simp [ht]

/-- C6 witness. -/
theorem extractor_code_roundtrip_witness :
    (extractSections ("hello".toList)).code = some ("hello".toList) :=
  extractor_code_roundtrip ("hello".toList) ("hello".toList) (by decide)
    (indexOf_none _ _ (by decide)) (indexOf_none _ _ (by decide))
    (indexOf_none _ _ (by decide))

/-! ### Go values and JSON marshaling (desktop front end) -/

/-- Model of the Go `interface{}` values that reach `convertToStringMap`:
strings, numbers, booleans, null, arrays, the two map shapes the function
type-switches on, and `vchan` for values that `json.Marshal` rejects
(channels, functions). -/
inductive GoVal where
  | vnull
  | vbool (b : Bool)
  | vint (n : Int)
  | vstr (s : Str)
  | varr (xs : List GoVal)
  | vmapSI (m : List (Str × GoVal))
  | vmapSS (m : List (Str × Str))
  | vchan

def intToStr (n : Int) : Str :=
  if n < 0 then '-' :: Nat.toDigits 10 n.natAbs else Nat.toDigits 10 n.toNat

def jsonQuote (s : Str) : Str :=
  '"' :: (s.map (fun c =>
    if c = '"' then ['\\', '"']
    else if c = '\\' then ['\\', '\\']
    else if c = '\n' then ['\\', 'n']
    else if c = '\t' then ['\\', 't']
    else if c = '\r' then ['\\', 'r']
    else [c])).flatten ++ ['"']

def joinComma (parts : List Str) : Str :=
  match parts with
  | [] => []
  | x :: rest => x ++ (rest.map (fun y => ',' :: y)).flatten

mutual

/-- Model of Go `json.Marshal` on the value universe above: `none` models a
marshaling error (unsupported value anywhere inside the input). -/
def jsonMarshal : GoVal → Option Str
  | .vnull => some ("null".toList)
  | .vbool b => some ((if b then "true" else "false").toList)
  | .vint n => some (intToStr n)
  | .vstr s => some (jsonQuote s)
  | .vchan => none
  | .varr xs =>
    match jsonMarshalArr xs with
    | some parts => some ('[' :: joinComma parts ++ [']'])
    | none => none
  | .vmapSI m =>
    match jsonMarshalObj m with
    | some parts => some (Char.ofNat 123 :: joinComma parts ++ [Char.ofNat 125])
    | none => none
  | .vmapSS m =>
    some (Char.ofNat 123 ::
      joinComma (m.map (fun kv => jsonQuote kv.1 ++ ':' :: jsonQuote kv.2)) ++
      [Char.ofNat 125])

def jsonMarshalArr : List GoVal → Option (List Str)
  | [] => some []
  | v :: t =>
    match jsonMarshal v, jsonMarshalArr t with
    | some j, some js => some (j :: js)
    | _, _ => none

def jsonMarshalObj : List (Str × GoVal) → Option (List Str)
  | [] => some []
  | (k, v) :: t =>
    match jsonMarshal v, jsonMarshalObj t with
    | some j, some js => some ((jsonQuote k ++ ':' :: j) :: js)
    | _, _ => none

end

/-- Shallow stand-in for `fmt.Sprintf("%v", v)`, reached by
`convertToStringMap` only when `json.Marshal` fails for a map value.  Its
exact rendering (for a channel, an address) is not modelled further; the
claims depend only on it being a fixed function. -/
def sprintfV : GoVal → Str
  | GoVal.vchan => "0xc000000000".toList
  | _ => "%v".toList

/-- The per-value conversion of case 1 of `convertToStringMap`: pass a string
through, otherwise use its JSON encoding, otherwise the fmt rendering. -/
def convVal (v : GoVal) : Str :=
  match v with
  | .vstr s => s
  | _ =>
    match jsonMarshal v with
    | some j => j
    | none => sprintfV v

/-- Model of `convertToStringMap` (desktop front end, README §code): case 1
converts a `map[string]interface{}` value-wise; case 2 passes a
`map[string]string` through unchanged (Go's type assertion to
`map[string]interface{}` fails for it); case 3 marshals the value and tries
to unmarshal the bytes into `map[string]interface{}`.  In the modelled value
universe every value reaching case 3 marshals to a non-object JSON document
(arrays, numbers, strings, booleans, null) or fails to marshal, so the
case-3 unmarshal fails either way and the function returns `(nil, false)`. -/
def convertToStringMap : GoVal → Option (List (Str × Str)) × Bool
  | .vmapSI m => (some (m.map (fun kv => (kv.1, convVal kv.2))), true)
  | .vmapSS m => (some m, true)
  | v =>
    match jsonMarshal v with
    | none => (none, false)
    | some _ => (none, false)

theorem convVal_spec (v : GoVal) :
    v = GoVal.vstr (convVal v) ∨ jsonMarshal v = some (convVal v) ∨
      (jsonMarshal v = none ∧ convVal v = sprintfV v) := by
  cases v with
  | vstr s => exact Or.inl rfl
  | vchan => exact Or.inr (Or.inr ⟨rfl, rfl⟩)
  | vnull => exact Or.inr (Or.inl rfl)
  | vbool b => exact Or.inr (Or.inl rfl)
  | vint n => exact Or.inr (Or.inl rfl)
  | vmapSS m => exact Or.inr (Or.inl rfl)
  | varr xs =>
    cases hj : jsonMarshal (GoVal.varr xs) with
    | some j => exact Or.inr (Or.inl (by simp [convVal, hj]))
    | none => exact Or.inr (Or.inr ⟨rfl, by simp [convVal, hj]⟩)
  | vmapSI m =>
    cases hj : jsonMarshal (GoVal.vmapSI m) with
    | some j => exact Or.inr (Or.inl (by simp [convVal, hj]))
    | none => exact Or.inr (Or.inr ⟨rfl, by simp [convVal, hj]⟩)

/-! ### Claim C7 -/

/-- C7: the normalizer is the identity (with success flag `true`) on flat
string-keyed maps: Go's case-1 type assertion to `map[string]interface{}`
fails for a `map[string]string`, so case 2 returns the map unchanged. -/
theorem convert_id_on_string_maps (m : List (Str × Str)) :
    convertToStringMap (GoVal.vmapSS m) = (some m, true) := rfl

/-! ### Claim C8 -/

/-- C8 (amended): for a `map[string]interface{}` input the normalizer
succeeds, and each output value is the original string passed through, a
JSON encoding of the value, or — when `json.Marshal` fails for that value,
a case the original claim does not allow — its fmt rendering; and a
non-map input whose marshaling fails yields `(nil, false)`. -/
theorem convert_values_json_or_fmt :
    (∀ (m : List (Str × GoVal)) (k : Str) (v : GoVal), (k, v) ∈ m →
      (convertToStringMap (GoVal.vmapSI m)).2 = true ∧
      ∃ w, (k, w) ∈ ((convertToStringMap (GoVal.vmapSI m)).1.getD []) ∧
        (v = GoVal.vstr w ∨ jsonMarshal v = some w ∨
          (jsonMarshal v = none ∧ w = sprintfV v))) ∧
    (∀ v : GoVal, jsonMarshal v = none →
      (∀ m, v ≠ GoVal.vmapSI m) → (∀ m, v ≠ GoVal.vmapSS m) →
      convertToStringMap v = (none, false)) := by
  constructor
  · intro m k v hmem
    refine ⟨rfl, convVal v, List.mem_map.mpr ⟨(k, v), hmem, rfl⟩, ?_⟩
    have h := convVal_spec v
    rcases h with h | h | ⟨h1, h2⟩
    · exact Or.inl h
    · exact Or.inr (Or.inl h)
    · exact Or.inr (Or.inr ⟨h1, h2⟩)
  · intro v hj hSI hSS
    cases v with
    | vmapSI m => exact absurd rfl (hSI m)
    | vmapSS m => exact absurd rfl (hSS m)
    | vnull => simp [convertToStringMap, hj]
    | vbool b => simp [convertToStringMap, hj]
    | vint n => simp [convertToStringMap, hj]
    | vstr s => simp [convertToStringMap, hj]
    | varr xs => simp [convertToStringMap, hj]
    | vchan => rfl

/-- C8 counterexample: a map value rejected by `json.Marshal` (a channel) is
fmt-rendered and reported as success: it is neither a passed-through string
nor a JSON encoding (none exists), and the whole-map marshal failure does not
make the normalizer fail. -/
theorem convert_values_json_or_fmt_cex :
    convertToStringMap (GoVal.vmapSI [("k".toList, GoVal.vchan)]) =
      (some [("k".toList, sprintfV GoVal.vchan)], true) ∧
    jsonMarshal GoVal.vchan = none ∧
    (∀ s, GoVal.vchan ≠ GoVal.vstr s) ∧
    jsonMarshal (GoVal.vmapSI [("k".toList, GoVal.vchan)]) = none := by
  refine ⟨rfl, rfl, ?_, rfl⟩
  intro s h
  exact GoVal.noConfusion h

/-- C8 witness. -/
theorem convert_values_json_or_fmt_witness :
    (∃ w, ("a".toList, w) ∈
        ((convertToStringMap (GoVal.vmapSI [("a".toList, GoVal.vint 2)])).1.getD []) ∧
      (GoVal.vint 2 = GoVal.vstr w ∨ jsonMarshal (GoVal.vint 2) = some w ∨
        (jsonMarshal (GoVal.vint 2) = none ∧ w = sprintfV (GoVal.vint 2)))) ∧
    convertToStringMap GoVal.vchan = (none, false) := by
  refine ⟨(convert_values_json_or_fmt.1 [("a".toList, GoVal.vint 2)] ("a".toList)
      (GoVal.vint 2) (List.mem_singleton.mpr rfl)).2,
    convert_values_json_or_fmt.2 GoVal.vchan rfl (fun m h => by cases h)
      (fun m h => by cases h)⟩

/-! ### The models-list cache (desktop front end) -/

/-- Model of the `OpenRouterModel` struct fields used by the UI. -/
structure OpenRouterModel where
  id : Str
  name : Str
  contextLength : Int
  created : Int
deriving DecidableEq

/-- Model of the global `modelsCache` (`Models`, `Timestamp`); `none` models
the zero `time.Time` (for which `IsZero()` holds), `some ts` a set
timestamp in nanoseconds. -/
structure ModelsCache where
  models : List OpenRouterModel
  timestamp : Option Int
deriving DecidableEq

/-- Twelve hours as a Go `time.Duration` (nanoseconds). -/
def cacheTTL : Int := 12 * 60 * 60 * 1000000000

/-- Model of the part of `fetchAvailableModels` after the cache check: perform
the HTTP request (its outcome is the `fetchResult` parameter), on success
store the data and `time.Now()` in the cache and return the model IDs, on
failure return the error with the cache unchanged. -/
def fetchFreshModels (cache : ModelsCache) (now : Int)
    (fetchResult : Except Str (List OpenRouterModel)) :
    Except Str (List Str) × ModelsCache :=
  match fetchResult with
  | .error e => (.error e, cache)
  | .ok data =>
    (.ok (data.map OpenRouterModel.id), { models := data, timestamp := some now })

/-- Model of `fetchAvailableModels`: `!modelsCache.Timestamp.IsZero() &&
time.Since(modelsCache.Timestamp) < 12*time.Hour &&
len(modelsCache.Models) > 0` serves the cached IDs; otherwise the fresh
fetch runs.  `now` is the wall clock at the call. -/
def fetchAvailableModels (cache : ModelsCache) (now : Int)
    (fetchResult : Except Str (List OpenRouterModel)) :
    Except Str (List Str) × ModelsCache :=
  match cache.timestamp with
  | some ts =>
    if now - ts < cacheTTL ∧ cache.models ≠ [] then
      (.ok (cache.models.map OpenRouterModel.id), cache)
    else fetchFreshModels cache now fetchResult
  | none => fetchFreshModels cache now fetchResult

/-- Model of the cache action of `refreshModelsList`:
`modelsCache.Timestamp = time.Time{}`. -/
def refreshModelsList (cache : ModelsCache) : ModelsCache :=
  { cache with timestamp := none }

/-! ### Claim C9 -/

/-- C9: the models cache is a single entry with a 12-hour TTL. (1) a fetch is
served from the cache — independently of what the network would return, and
leaving the cache unchanged — exactly when the timestamp is set, younger than
12 hours, and the cached list is non-empty; (2) in every other state the
fresh fetch runs; (3) a successful fresh fetch replaces the cached list and
timestamp; (4) a manual refresh zeroes the timestamp, after which a fetch
cannot be served from the cache. -/
theorem models_cache_ttl :
    (∀ cache ts now fr, cache.timestamp = some ts → now - ts < cacheTTL →
      cache.models ≠ [] →
      fetchAvailableModels cache now fr =
        (.ok (cache.models.map OpenRouterModel.id), cache)) ∧
    (∀ cache now fr, (∀ ts, cache.timestamp = some ts →
        ¬ (now - ts < cacheTTL ∧ cache.models ≠ [])) →
      fetchAvailableModels cache now fr = fetchFreshModels cache now fr) ∧
    (∀ cache now data, fetchFreshModels cache now (.ok data) =
      (.ok (data.map OpenRouterModel.id),
        { models := data, timestamp := some now })) ∧
    (∀ cache now fr, (refreshModelsList cache).timestamp = none ∧
      fetchAvailableModels (refreshModelsList cache) now fr =
        fetchFreshModels (refreshModelsList cache) now fr) := by
  refine ⟨?_, ?_, ?_, ?_⟩
  · intro cache ts now fr hts h1 h2
    simp [fetchAvailableModels, hts, h1, h2]
  · intro cache now fr h
    cases hts : cache.timestamp with
    | none => simp [fetchAvailableModels, hts]
    | some ts => simp [fetchAvailableModels, hts, if_neg (h ts hts)]
  · intro cache now data
    rfl
  · intro cache now fr
    exact ⟨rfl, rfl⟩

/-- C9 witness: a young, non-empty cache entry is served even when the
network is down. -/
theorem models_cache_ttl_witness :
    fetchAvailableModels
        { models := [OpenRouterModel.mk ("m1".toList) ("M1".toList) 8192 0],
          timestamp := some 0 }
        100 (.error ("network down".toList)) =
      (.ok ["m1".toList],
        { models := [OpenRouterModel.mk ("m1".toList) ("M1".toList) 8192 0],
          timestamp := some 0 }) := by
  have h := models_cache_ttl.1
    { models := [OpenRouterModel.mk ("m1".toList) ("M1".toList) 8192 0],
      timestamp := some 0 }
    0 100 (.error ("network down".toList)) rfl (by decide)
    (List.cons_ne_nil _ _)
  exact h

/-! ### Intent parsing without an LLM client -/

/-- Model of the `Intent` struct of `pkg/intent/processor.go`; `parameters`
is `Option`-valued to distinguish Go's nil map (`none`) from an allocated
map (`some`). -/
structure Intent where
  raw : Str
  type : Str
  target : Str
  constraints : List Str
  parameters : Option (List (Str × GoVal))

/-- Model of `ParseIntent` when `p.llmClient == nil`: allocate the intent
with `Raw` and a fresh `Parameters` map, then the basic keyword branch
(case-sensitive `strings.Contains` tests), returning a nil error in every
branch. -/
def ParseIntent (rawIntent : Str) : Except Str Intent :=
  let intent : Intent :=
    { raw := rawIntent, type := [], target := [], constraints := [],
      parameters := some [] }
  if containsStr rawIntent ("create".toList) || containsStr rawIntent ("make".toList) then
    .ok { intent with
      type := "Create".toList,
      target :=
        if containsStr rawIntent ("function".toList) then "Function".toList
        else if containsStr rawIntent ("class".toList) then "Class".toList
        else intent.target }
  else if containsStr rawIntent ("modify".toList) || containsStr rawIntent ("change".toList) then
    .ok { intent with type := "Modify".toList }
  else if containsStr rawIntent ("delete".toList) || containsStr rawIntent ("remove".toList) then
    .ok { intent with type := "Delete".toList }
  else if containsStr rawIntent ("query".toList) || containsStr rawIntent ("find".toList) then
    .ok { intent with type := "Query".toList }
  else
    .ok intent

/-! ### Claim C10 -/

/-- C10: with no LLM client configured, `ParseIntent` never fails: it returns
an intent and a nil error for every input; the intent's `Raw` is the input,
its `Parameters` map is non-nil, and its `Type` is computed by case-sensitive
literal substring tests on the input — hence always one of `""`, `Create`,
`Modify`, `Delete`, `Query`. -/
theorem parse_intent_basic_total (r : Str) :
    ∃ i, ParseIntent r = .ok i ∧ i.raw = r ∧ i.parameters.isSome = true ∧
      i.type =
        (if containsStr r ("create".toList) || containsStr r ("make".toList) then
          "Create".toList
        else if containsStr r ("modify".toList) || containsStr r ("change".toList) then
          "Modify".toList
        else if containsStr r ("delete".toList) || containsStr r ("remove".toList) then
          "Delete".toList
        else if containsStr r ("query".toList) || containsStr r ("find".toList) then
          "Query".toList
        else []) ∧
      (i.type = [] ∨ i.type = "Create".toList ∨ i.type = "Modify".toList ∨
        i.type = "Delete".toList ∨ i.type = "Query".toList) := by
  unfold ParseIntent
  split_ifs <;> exact ⟨_, rfl, rfl, rfl, rfl, by simp⟩
